import Mathlib

/-!
Verification of the Monte Carlo delivery-forecast engine (`src/app.py`).

The randomness source (`random.randint`, `random.choice`) is modelled as an
explicit stream of draws consumed in order: a trial is a deterministic
function of its draw stream, and theorems quantify over all streams whose
draws lie in the stated pool.  Python integers are `Int`, Python floats are
embedded as exact rationals `ℚ`.
-/

namespace MonteCarlo

/-! ### Scope forecast engine (`show_forecast`, src/app.py lines 157-166) -/

/-- The effective velocity used for one decrement of the scope loop:
`if velocity <= 0: velocity = 1` (src/app.py line 163). -/
def effVelocity (v : Int) : Int := if v ≤ 0 then 1 else v

theorem one_le_effVelocity (v : Int) : 1 ≤ effVelocity v := by
  unfold effVelocity; split <;> omega

/-- One trial of the scope loop (src/app.py lines 160-165):
`while total_work > 0: v := draw; total_work -= effVelocity v; weeks += 1`,
returning the final week counter.  `draws k` is the `k`-th value returned by
`random.choice(pulse)` within this trial. -/
def scopeWeeks (draws : Nat → Int) (t : Int) : Nat :=
  if h : 0 < t then
    scopeWeeks (fun k => draws (k + 1)) (t - effVelocity (draws 0)) + 1
  else 0
termination_by t.toNat
decreasing_by
  have := one_le_effVelocity (draws 0)
  omega

/-- Total effective throughput of the first `n` draws. -/
def effSum (draws : Nat → Int) (n : Nat) : Int :=
  ∑ k ∈ Finset.range n, effVelocity (draws k)

theorem effSum_zero (draws : Nat → Int) : effSum draws 0 = 0 := by
  simp [effSum]

theorem effSum_succ_shift (draws : Nat → Int) (n : Nat) :
    effSum draws (n + 1) =
      effVelocity (draws 0) + effSum (fun k => draws (k + 1)) n := by
  unfold effSum
  rw [Finset.sum_range_succ']
  ring

theorem le_effSum (draws : Nat → Int) (n : Nat) : (n : Int) ≤ effSum draws n := by
  induction n with
  | zero => simp [effSum]
  | succ m ih =>
      unfold effSum
      rw [Finset.sum_range_succ]
      have := one_le_effVelocity (draws m)
      unfold effSum at ih
      push_cast
      omega

theorem exists_scope_stop (draws : Nat → Int) (t : Int) :
    ∃ n, t ≤ effSum draws n :=
  ⟨t.toNat, le_trans (Int.self_le_toNat t) (le_effSum draws t.toNat)⟩

/-- The spec's description of a trial outcome: "the value of the week counter
when remaining first becomes <= 0", i.e. the least `n` such that after `n`
effective decrements the remaining work is `≤ 0`. -/
def scopeSpecWeeks (draws : Nat → Int) (t : Int) : Nat :=
  Nat.find (exists_scope_stop draws t)

theorem scopeSpecWeeks_nonpos (draws : Nat → Int) (t : Int) (h : ¬ 0 < t) :
    scopeSpecWeeks draws t = 0 := by
  unfold scopeSpecWeeks
  rw [Nat.find_eq_zero]
  rw [effSum_zero]
  omega

theorem scopeSpecWeeks_pos (draws : Nat → Int) (t : Int) (h : 0 < t) :
    scopeSpecWeeks draws t =
      scopeSpecWeeks (fun k => draws (k + 1)) (t - effVelocity (draws 0)) + 1 := by
  unfold scopeSpecWeeks
  rw [Nat.find_eq_iff]
  constructor
  · rw [effSum_succ_shift]
    have hspec := Nat.find_spec
      (exists_scope_stop (fun k => draws (k + 1)) (t - effVelocity (draws 0)))
    omega
  · intro n hn
    match n with
    | 0 =>
        rw [effSum_zero]
        omega
    | m + 1 =>
        have hm : m < Nat.find
            (exists_scope_stop (fun k => draws (k + 1)) (t - effVelocity (draws 0))) := by
          omega
        have hmin := Nat.find_min
          (exists_scope_stop (fun k => draws (k + 1)) (t - effVelocity (draws 0))) hm
        rw [effSum_succ_shift]
        omega

theorem scopeWeeks_eq_spec_aux :
    ∀ (n : Nat) (draws : Nat → Int) (t : Int), t.toNat ≤ n →
      scopeWeeks draws t = scopeSpecWeeks draws t := by
  intro n
  induction n with
  | zero =>
      intro draws t ht
      have h : ¬ 0 < t := by omega
      rw [scopeWeeks, dif_neg h, scopeSpecWeeks_nonpos draws t h]
  | succ m ih =>
      intro draws t ht
      by_cases h : 0 < t
      · have hdec : (t - effVelocity (draws 0)).toNat ≤ m := by
          have := one_le_effVelocity (draws 0)
          omega
        rw [scopeWeeks, dif_pos h, ih _ _ hdec, scopeSpecWeeks_pos draws t h]
      · rw [scopeWeeks, dif_neg h, scopeSpecWeeks_nonpos draws t h]

theorem scopeWeeks_eq_spec (draws : Nat → Int) (t : Int) :
    scopeWeeks draws t = scopeSpecWeeks draws t :=
  scopeWeeks_eq_spec_aux t.toNat draws t le_rfl

theorem scopeWeeks_nonpos (draws : Nat → Int) (t : Int) (h : ¬ 0 < t) :
    scopeWeeks draws t = 0 := by
  rw [scopeWeeks, dif_neg h]

/-- The scope loop with an explicit iteration budget: `some` when the loop
finishes within `fuel` iterations, `none` when the budget is exhausted with
work remaining. -/
def scopeWeeksFuel : Nat → (Nat → Int) → Int → Option Nat
  | 0, _, t => if 0 < t then none else some 0
  | fuel + 1, draws, t =>
      if 0 < t then
        (scopeWeeksFuel fuel (fun k => draws (k + 1))
          (t - effVelocity (draws 0))).map (fun w => w + 1)
      else some 0

theorem scopeWeeksFuel_complete :
    ∀ (fuel : Nat) (draws : Nat → Int) (t : Int), t.toNat ≤ fuel →
      scopeWeeksFuel fuel draws t = some (scopeWeeks draws t) := by
  intro fuel
  induction fuel with
  | zero =>
      intro draws t ht
      have h : ¬ 0 < t := by omega
      rw [scopeWeeksFuel, if_neg h, scopeWeeks_nonpos draws t h]
  | succ m ih =>
      intro draws t ht
      by_cases h : 0 < t
      · have hdec : (t - effVelocity (draws 0)).toNat ≤ m := by
          have := one_le_effVelocity (draws 0)
          omega
        rw [scopeWeeksFuel, if_pos h, ih _ _ hdec]
        conv_rhs => rw [scopeWeeks, dif_pos h]
        rfl
      · rw [scopeWeeksFuel, if_neg h, scopeWeeks_nonpos draws t h]

/-- `random.randint(a, b)` (src/app.py line 159): returns an integer drawn
uniformly from the closed interval `[a, b]`; per Python's documented
behaviour it raises `ValueError` when the range is empty (`a > b`).  The
entropy input `r` selects which element of the range is drawn. -/
def randint (a b : Int) (r : Nat) : Except String Int :=
  if b < a then Except.error "ValueError: empty range in randint"
  else Except.ok (a + ((r % (b - a + 1).toNat : Nat) : Int))

/-- The whole scope-engine run (src/app.py lines 157-166): `sims` trials, each
drawing its backlog size with `random.randint(scope_min, scope_max)` and then
running the scope loop; the outcome batch is the list of week counts.  An
exception raised inside a trial aborts the run with no batch produced. -/
def scopeRun (smin smax : Int) (sims : Nat) (sdraw : Nat → Nat)
    (pdraws : Nat → Nat → Int) : Except String (List Nat) :=
  (List.range sims).mapM
    (fun i => (randint smin smax (sdraw i)).map (fun t => scopeWeeks (pdraws i) t))

/-! ### Crossing locator (`get_exact_week`, src/app.py lines 337-347) -/

/-- The `1e-9` guard added to the denominator in `get_exact_week`
(src/app.py line 345), embedded as the exact rational. -/
def eps : ℚ := 1 / 1000000000

/-- The scan of `get_exact_week` (src/app.py lines 338-347): walk adjacent
pairs of the trajectory, `i` being the absolute index of the first element of
the current pair; on the first pair bracketing the target return
`(i + current_week) + (target - val_start) / (val_end - val_start + 1e-9)`. -/
def get_exact_week_aux (cw : Nat) (target : ℚ) : Nat → List ℚ → Option ℚ
  | i, a :: b :: rest =>
      if a ≤ target ∧ target ≤ b then
        some (((i + cw : Nat) : ℚ) + (target - a) / (b - a + eps))
      else get_exact_week_aux cw target (i + 1) (b :: rest)
  | _, _ => none

/-- `get_exact_week(y_values, target)` (src/app.py lines 337-347), with the
enclosing `current_week` made an explicit parameter. -/
def get_exact_week (cw : Nat) (y_values : List ℚ) (target : ℚ) : Option ℚ :=
  get_exact_week_aux cw target 0 y_values

/-- The bracketing test of src/app.py line 343 at index `i`:
`y_values[i] <= target and y_values[i+1] >= target`. -/
def crossCond (ys : List ℚ) (t : ℚ) (i : Nat) : Prop :=
  ys.getD i 0 ≤ t ∧ t ≤ ys.getD (i + 1) 0

instance (ys : List ℚ) (t : ℚ) (i : Nat) : Decidable (crossCond ys t i) :=
  inferInstanceAs (Decidable (_ ∧ _))

theorem get_exact_week_aux_none (cw : Nat) (t : ℚ) :
    ∀ (ys : List ℚ) (i0 : Nat),
      (∀ i, i + 1 < ys.length → ¬ crossCond ys t i) →
      get_exact_week_aux cw t i0 ys = none := by
  intro ys
  induction ys with
  | nil => intro i0 _; rfl
  | cons a l ih =>
      intro i0 h
      match l with
      | [] => rfl
      | b :: rest =>
          have h0 : ¬ (a ≤ t ∧ t ≤ b) := by
            have := h 0 (by simp)
            simpa [crossCond] using this
          rw [get_exact_week_aux, if_neg h0]
          apply ih
          intro i hi
          have := h (i + 1) (by simpa using hi)
          simpa [crossCond] using this

theorem get_exact_week_aux_some (cw : Nat) (t : ℚ) :
    ∀ (ys : List ℚ) (i0 i : Nat), i + 1 < ys.length →
      crossCond ys t i → (∀ j, j < i → ¬ crossCond ys t j) →
      get_exact_week_aux cw t i0 ys =
        some (((i0 + i + cw : Nat) : ℚ) +
          (t - ys.getD i 0) / (ys.getD (i + 1) 0 - ys.getD i 0 + eps)) := by
  intro ys
  induction ys with
  | nil => intro i0 i hi; simp at hi
  | cons a l ih =>
      intro i0 i hi hc hmin
      match l with
      | [] => simp at hi
      | b :: rest =>
          match i with
          | 0 =>
              have hc' : a ≤ t ∧ t ≤ b := by simpa [crossCond] using hc
              rw [get_exact_week_aux, if_pos hc']
              simp
          | j + 1 =>
              have h0 : ¬ (a ≤ t ∧ t ≤ b) := by
                have := hmin 0 (by omega)
                simpa [crossCond] using this
              rw [get_exact_week_aux, if_neg h0]
              have hrec := ih (i0 + 1) j (by simpa using hi)
                (by simpa [crossCond] using hc)
                (by
                  intro k hk
                  have := hmin (k + 1) (by omega)
                  simpa [crossCond] using this)
              rw [hrec]
              have harith : i0 + 1 + j + cw = i0 + (j + 1) + cw := by omega
              rw [harith]
              simp [crossCond, List.getD_cons_succ]

/-! ### Result formatting and truthiness (`fmt_week`, src/app.py lines 381-382) -/

/-- Python truthiness of an optional float crossing result: `None` and `0.0`
are both falsy; every other value is truthy.  This is the guard used both by
`if w:` in `fmt_week` (line 382) and by `if w_50_exact:` etc. before drawing
the vertical marker lines (lines 356, 361, 366). -/
def pyTruthy (w : Option ℚ) : Bool :=
  match w with
  | none => false
  | some q => q != 0

/-- `fmt_week` (src/app.py lines 381-382):
`f"Week {int(np.ceil(w))}" if w else "N/A"`. -/
def fmt_week (w : Option ℚ) : String :=
  if pyTruthy w then "Week " ++ toString (Int.ceil (w.getD 0)) else "N/A"

/-! ### Burn-up engine (`show_horizon`, src/app.py lines 271-288) -/

/-- `remaining_weeks = 30  # Horizon` (src/app.py line 276). -/
def remaining_weeks : Nat := 30

/-- `items_done = sum(project_actuals)` (src/app.py line 275). -/
def items_done (project_actuals : List Int) : Int := project_actuals.sum

/-- `simulation_pool = pulse_data + project_actuals;
if not simulation_pool: simulation_pool = [1]` (src/app.py lines 278-279). -/
def simulation_pool (pulse_data project_actuals : List Int) : List Int :=
  if pulse_data ++ project_actuals = [] then [1]
  else pulse_data ++ project_actuals

/-- `random.choice(pool)`: one uniform draw from the pool, the entropy input
`r` selecting the index. -/
def choice (pool : List Int) (r : Nat) : Int :=
  pool.getD (r % pool.length) 0

theorem choice_mem (pool : List Int) (r : Nat) (h : pool ≠ []) :
    choice pool r ∈ pool := by
  have hlen : 0 < pool.length := List.length_pos.mpr h
  have hlt : r % pool.length < pool.length := Nat.mod_lt r hlen
  unfold choice
  rw [List.getD_eq_getElem _ _ hlt]
  exact List.getElem_mem hlt

theorem choice_nonneg (pool : List Int) (r : Nat)
    (h : ∀ x ∈ pool, 0 ≤ x) : 0 ≤ choice pool r := by
  match hp : pool with
  | [] => simp [choice]
  | a :: l => exact h _ (choice_mem (a :: l) r (by simp))

/-- The inner loop of one burn-up trial (src/app.py lines 283-287):
`for w in range(n): cumulative += random.choice(pool); path.append(cumulative)`,
started at week offset `w` with running total `cum`. -/
def burnupPathAux (pool : List Int) (idx : Nat → Nat) : Nat → Int → Nat → List Int
  | 0, _, _ => []
  | n + 1, cum, w =>
      (cum + choice pool (idx w)) :: burnupPathAux pool idx n (cum + choice pool (idx w)) (w + 1)

/-- One trial's row of the burn-up matrix (src/app.py lines 283-288): the
`remaining_weeks` successive cumulative totals starting from `items_done`. -/
def burnupPath (pool : List Int) (idx : Nat → Nat) (d : Int) : List Int :=
  burnupPathAux pool idx remaining_weeks d 0

/-- The full burn-up run (src/app.py lines 281-288): one row per trial,
trial `i` consuming its own draw stream `idx i`. -/
def burnupRun (pool : List Int) (idx : Nat → Nat → Nat) (d : Int)
    (sims : Nat) : List (List Int) :=
  (List.range sims).map (fun i => burnupPath pool (idx i) d)

theorem burnupPathAux_length (pool : List Int) (idx : Nat → Nat) :
    ∀ (n : Nat) (cum : Int) (w : Nat), (burnupPathAux pool idx n cum w).length = n := by
  intro n
  induction n with
  | zero => intro cum w; rfl
  | succ m ih => intro cum w; simp [burnupPathAux, ih]

theorem burnupPath_length (pool : List Int) (idx : Nat → Nat) (d : Int) :
    (burnupPath pool idx d).length = remaining_weeks :=
  burnupPathAux_length pool idx remaining_weeks d 0

theorem burnupPathAux_head (pool : List Int) (idx : Nat → Nat)
    (n : Nat) (cum : Int) (w : Nat) (h : 0 < n) :
    (burnupPathAux pool idx n cum w).getD 0 0 = cum + choice pool (idx w) := by
  match n with
  | m + 1 => rfl

theorem burnupPathAux_step (pool : List Int) (idx : Nat → Nat) :
    ∀ (n : Nat) (cum : Int) (w j : Nat), j + 1 < n →
      (burnupPathAux pool idx n cum w).getD (j + 1) 0 =
        (burnupPathAux pool idx n cum w).getD j 0 + choice pool (idx (w + j + 1)) := by
  intro n
  induction n with
  | zero => intro cum w j hj; omega
  | succ m ih =>
      intro cum w j hj
      match j with
      | 0 =>
          have hm : 0 < m := by omega
          rw [burnupPathAux]
          simp only [List.getD_cons_succ, List.getD_cons_zero]
          rw [burnupPathAux_head pool idx m _ (w + 1) hm]
      | k + 1 =>
          rw [burnupPathAux]
          simp only [List.getD_cons_succ]
          rw [ih _ (w + 1) k (by omega)]
          have : w + 1 + k + 1 = w + (k + 1) + 1 := by omega
          rw [this]

/-! ### Percentile summary (`np.percentile`, src/app.py lines 169-171, 292-299) -/

/-- The ascending reordering of a batch, as `np.percentile` computes over the
sorted data. -/
def sortedBatch (data : List ℚ) : List ℚ := data.insertionSort (· ≤ ·)

/-- Linear-interpolation percentile lookup on an already sorted batch `s` at
virtual position `pos = q/100 * (n-1)`: interpolate between the two nearest
ordered samples, `s[⌊pos⌋] + (pos - ⌊pos⌋) * (s[⌊pos⌋+1] - s[⌊pos⌋])`.  This is
numpy's default ("linear") interpolation method used by `np.percentile`. -/
def interpSorted (s : List ℚ) (pos : ℚ) : ℚ :=
  if (⌊pos⌋).toNat + 1 < s.length then
    s.getD (⌊pos⌋).toNat 0 +
      (pos - ((⌊pos⌋).toNat : ℚ)) *
        (s.getD ((⌊pos⌋).toNat + 1) 0 - s.getD (⌊pos⌋).toNat 0)
  else s.getD (s.length - 1) 0

/-- `np.percentile(data, q)` with the default linear interpolation
(src/app.py lines 169-171). -/
def percentile (data : List ℚ) (q : ℚ) : ℚ :=
  interpSorted (sortedBatch data) (q / 100 * (((sortedBatch data).length : ℚ) - 1))

theorem interpSorted_of_lt (s : List ℚ) (pos : ℚ)
    (h : (⌊pos⌋).toNat + 1 < s.length) :
    interpSorted s pos =
      s.getD (⌊pos⌋).toNat 0 +
        (pos - ((⌊pos⌋).toNat : ℚ)) *
          (s.getD ((⌊pos⌋).toNat + 1) 0 - s.getD (⌊pos⌋).toNat 0) := by
  rw [interpSorted, if_pos h]

theorem interpSorted_of_ge (s : List ℚ) (pos : ℚ)
    (h : ¬ (⌊pos⌋).toNat + 1 < s.length) :
    interpSorted s pos = s.getD (s.length - 1) 0 := by
  rw [interpSorted, if_neg h]

theorem sorted_getD_mono {s : List ℚ} (hs : s.Sorted (· ≤ ·)) {a b : Nat}
    (hab : a ≤ b) (hb : b < s.length) : s.getD a 0 ≤ s.getD b 0 := by
  have ha : a < s.length := lt_of_le_of_lt hab hb
  rw [List.getD_eq_getElem _ _ ha, List.getD_eq_getElem _ _ hb]
  have h2 : (⟨a, ha⟩ : Fin s.length) ≤ ⟨b, hb⟩ := hab
  have := hs.rel_get_of_le h2
  simpa using this

theorem floor_toNat_cast_le {p : ℚ} (h : 0 ≤ p) : ((⌊p⌋.toNat : Nat) : ℚ) ≤ p := by
  have hz : ((⌊p⌋.toNat : Nat) : Int) = ⌊p⌋ := Int.toNat_of_nonneg (Int.floor_nonneg.mpr h)
  have hc : ((⌊p⌋.toNat : Nat) : ℚ) = ((⌊p⌋ : Int) : ℚ) := by exact_mod_cast hz
  rw [hc]
  exact Int.floor_le p

theorem lt_floor_toNat_cast_add_one {p : ℚ} (h : 0 ≤ p) :
    p < ((⌊p⌋.toNat : Nat) : ℚ) + 1 := by
  have hz : ((⌊p⌋.toNat : Nat) : Int) = ⌊p⌋ := Int.toNat_of_nonneg (Int.floor_nonneg.mpr h)
  have hc : ((⌊p⌋.toNat : Nat) : ℚ) = ((⌊p⌋ : Int) : ℚ) := by exact_mod_cast hz
  rw [hc]
  exact Int.lt_floor_add_one p

theorem interpSorted_mono {s : List ℚ} (hs : s.Sorted (· ≤ ·)) (hne : s ≠ [])
    {p q : ℚ} (h0 : 0 ≤ p) (hpq : p ≤ q) (hq : q ≤ (s.length : ℚ) - 1) :
    interpSorted s p ≤ interpSorted s q := by
  have hn : 0 < s.length := List.length_pos.mpr hne
  have h0q : 0 ≤ q := le_trans h0 hpq
  have hz1 : (0 : Int) ≤ ⌊p⌋ := Int.floor_nonneg.mpr h0
  have hz2 : (0 : Int) ≤ ⌊q⌋ := Int.floor_nonneg.mpr h0q
  have hf12 : ⌊p⌋ ≤ ⌊q⌋ := Int.floor_le_floor hpq
  have hfn : ⌊q⌋ ≤ (s.length : Int) - 1 := by
    have hmono := Int.floor_le_floor hq
    have hcast : ((s.length : ℚ) - 1) = (((s.length : Int) - 1 : Int) : ℚ) := by
      push_cast; ring
    rw [hcast, Int.floor_intCast] at hmono
    exact hmono
  have hi12 : ⌊p⌋.toNat ≤ ⌊q⌋.toNat := by omega
  have hi2n : ⌊q⌋.toNat + 1 ≤ s.length := by omega
  have hq1l : ((⌊p⌋.toNat : Nat) : ℚ) ≤ p := floor_toNat_cast_le h0
  have hq1u : p < ((⌊p⌋.toNat : Nat) : ℚ) + 1 := lt_floor_toNat_cast_add_one h0
  have hq2l : ((⌊q⌋.toNat : Nat) : ℚ) ≤ q := floor_toNat_cast_le h0q
  by_cases hc2 : ⌊q⌋.toNat + 1 < s.length
  · have hd2 : 0 ≤ s.getD (⌊q⌋.toNat + 1) 0 - s.getD ⌊q⌋.toNat 0 := by
      have := sorted_getD_mono hs (Nat.le_succ ⌊q⌋.toNat) hc2
      linarith
    have hlow2 : s.getD ⌊q⌋.toNat 0 ≤ interpSorted s q := by
      rw [interpSorted_of_lt s q hc2]
      nlinarith
    by_cases heq : ⌊p⌋.toNat = ⌊q⌋.toNat
    · have hc1 : ⌊p⌋.toNat + 1 < s.length := by omega
      rw [interpSorted_of_lt s p hc1, interpSorted_of_lt s q hc2, heq]
      nlinarith
    · have hlt : ⌊p⌋.toNat < ⌊q⌋.toNat := lt_of_le_of_ne hi12 heq
      have hc1 : ⌊p⌋.toNat + 1 < s.length := by omega
      have hd1 : 0 ≤ s.getD (⌊p⌋.toNat + 1) 0 - s.getD ⌊p⌋.toNat 0 := by
        have := sorted_getD_mono hs (Nat.le_succ ⌊p⌋.toNat) hc1
        linarith
      have hup1 : interpSorted s p ≤ s.getD (⌊p⌋.toNat + 1) 0 := by
        rw [interpSorted_of_lt s p hc1]
        nlinarith
      have hmid : s.getD (⌊p⌋.toNat + 1) 0 ≤ s.getD ⌊q⌋.toNat 0 :=
        sorted_getD_mono hs (by omega) (by omega)
      linarith
  · rw [interpSorted_of_ge s q hc2]
    by_cases hc1 : ⌊p⌋.toNat + 1 < s.length
    · have hd1 : 0 ≤ s.getD (⌊p⌋.toNat + 1) 0 - s.getD ⌊p⌋.toNat 0 := by
        have := sorted_getD_mono hs (Nat.le_succ ⌊p⌋.toNat) hc1
        linarith
      have hup1 : interpSorted s p ≤ s.getD (⌊p⌋.toNat + 1) 0 := by
        rw [interpSorted_of_lt s p hc1]
        nlinarith
      have hmid : s.getD (⌊p⌋.toNat + 1) 0 ≤ s.getD (s.length - 1) 0 :=
        sorted_getD_mono hs (by omega) (by omega)
      linarith
    · rw [interpSorted_of_ge s p hc1]

/-! ### Claims -/

/-- Claim C1: for every trial of the scope engine with `scope_min ≤ scope_max`
and a non-empty pool, the outcome computed by the code's loop (`scopeWeeks`)
equals the reference definition (`scopeSpecWeeks`): the least week count `n`
such that the initially drawn backlog is exhausted by the first `n` effective
decrements (zero draws substituted by 1).  In particular, when
`scope_min = scope_max = 0` every trial's outcome is 0. -/
theorem claim_c1 (smin smax r : Int) (pool : List Int) (draws : Nat → Int)
    (hpool : pool ≠ []) (hdraws : ∀ k, draws k ∈ pool)
    (hrange : smin ≤ smax) (hr1 : smin ≤ r) (hr2 : r ≤ smax) :
    scopeWeeks draws r = scopeSpecWeeks draws r ∧
      (smin = 0 → smax = 0 → scopeWeeks draws r = 0) := by
  refine ⟨scopeWeeks_eq_spec draws r, ?_⟩
  intro h1 h2
  have hr : r = 0 := by omega
  rw [hr, scopeWeeks_nonpos _ _ (by omega)]

/-- Witness for C1 at pool `[2]`, constant draw stream `2`: bounds `0 ≤ 5 ≤ 7`
for the refinement part and bounds `0 ≤ 0 ≤ 0` for the zero edge case. -/
theorem claim_c1_witness :
    scopeWeeks (fun _ => 2) 5 = scopeSpecWeeks (fun _ => 2) 5 ∧
      scopeWeeks (fun _ => 2) 0 = 0 :=
  ⟨(claim_c1 0 7 5 [2] (fun _ => 2) (by decide) (fun _ => by simp)
      (by decide) (by decide) (by decide)).1,
   (claim_c1 0 0 0 [2] (fun _ => 2) (by decide) (fun _ => by simp)
      (by decide) (by decide) (by decide)).2 rfl rfl⟩

/-- Claim C2: `get_exact_week` scans adjacent pairs in order and, at the first
index `i` whose pair brackets the target, returns
`current_week + i + (target - y[i]) / (y[i+1] - y[i] + 1e-9)`; it returns
`None` when no adjacent pair brackets the target. -/
theorem claim_c2 (cw : Nat) (ys : List ℚ) (t : ℚ) :
    ((∀ i, i + 1 < ys.length → ¬ crossCond ys t i) → get_exact_week cw ys t = none) ∧
      (∀ i, i + 1 < ys.length → crossCond ys t i → (∀ j, j < i → ¬ crossCond ys t j) →
        get_exact_week cw ys t =
          some (((i + cw : Nat) : ℚ) +
            (t - ys.getD i 0) / (ys.getD (i + 1) 0 - ys.getD i 0 + eps))) := by
  constructor
  · intro h
    exact get_exact_week_aux_none cw t ys 0 h
  · intro i hi hc hmin
    have := get_exact_week_aux_some cw t ys 0 i hi hc hmin
    simpa [get_exact_week] using this

/-- Witness for C2: trajectory `[0, 10]`, target `5`, start week `0`, crossing
found at index `0`. -/
theorem claim_c2_witness :
    get_exact_week 0 [0, 10] 5 =
      some (((0 + 0 : Nat) : ℚ) +
        ((5 : ℚ) - ([0, 10] : List ℚ).getD 0 0) /
          (([0, 10] : List ℚ).getD (0 + 1) 0 - ([0, 10] : List ℚ).getD 0 0 + eps)) :=
  (claim_c2 0 [0, 10] 5).2 0 (by decide) (by decide)
    (fun j hj => absurd hj (Nat.not_lt_zero j))

/-- Claim C3 (amended): the burn-up horizon hardcoded at src/app.py line 276 is
30 weeks, not 40; every trial's row of the output matrix has exactly 30
entries. -/
theorem claim_c3_amended (pool : List Int) (idx : Nat → Nat → Nat) (d : Int)
    (sims : Nat) :
    remaining_weeks = 30 ∧ ∀ row ∈ burnupRun pool idx d sims, row.length = 30 := by
  refine ⟨rfl, ?_⟩
  intro row hrow
  rw [burnupRun] at hrow
  obtain ⟨i, hi, rfl⟩ := List.mem_map.mp hrow
  exact burnupPath_length pool (idx i) d

/-- Counterexample for C3 as stated: a concrete burn-up run whose (unique) row
does not have 40 entries. -/
theorem claim_c3_counterexample :
    ¬ ∀ row ∈ burnupRun [1] (fun _ _ => 0) 0 1, row.length = 40 := by decide

/-- Witness for C3 (amended) at the run with pool `[1]`, one trial. -/
theorem claim_c3_witness : (burnupPath [1] (fun _ => 0) 0).length = 30 :=
  (claim_c3_amended [1] (fun _ _ => 0) 0 1).2 (burnupPath [1] (fun _ => 0) 0)
    (by decide)

/-- Claim C4: every scope-engine trial terminates because each effective
decrement is at least 1: the loop finishes within `r.toNat` iterations
(`scopeWeeksFuel` succeeds on that budget and agrees with `scopeWeeks`), and
the returned week count is a natural number, hence `≥ 0`. -/
theorem claim_c4 (smin smax r : Int) (pool : List Int) (draws : Nat → Int)
    (hpool : pool ≠ []) (hdraws : ∀ k, draws k ∈ pool)
    (hmin : 0 ≤ smin) (hrange : smin ≤ smax) (hr1 : smin ≤ r) (hr2 : r ≤ smax) :
    (∀ k, 1 ≤ effVelocity (draws k)) ∧
      scopeWeeksFuel r.toNat draws r = some (scopeWeeks draws r) ∧
      0 ≤ scopeWeeks draws r :=
  ⟨fun k => one_le_effVelocity (draws k),
   scopeWeeksFuel_complete r.toNat draws r le_rfl,
   Nat.zero_le _⟩

/-- Witness for C4 at pool `[3]`, constant draw stream `3`, bounds `1 ≤ 2 ≤ 4`. -/
theorem claim_c4_witness :
    1 ≤ effVelocity ((fun _ : Nat => (3 : Int)) 0) ∧
      scopeWeeksFuel (2 : Int).toNat (fun _ : Nat => (3 : Int)) 2 =
        some (scopeWeeks (fun _ : Nat => (3 : Int)) 2) ∧
      0 ≤ scopeWeeks (fun _ : Nat => (3 : Int)) 2 :=
  have h := claim_c4 1 4 2 [3] (fun _ => 3) (by decide) (fun _ => by simp)
    (by decide) (by decide) (by decide) (by decide)
  ⟨h.1 0, h.2.1, h.2.2⟩

/-- Claim C5: in burn-up mode the resampling pool is the concatenation of the
pulse history and the project actuals (the actuals are part of the pool, not
merely the starting cumulative), with `[1]` substituted exactly when that
concatenation is empty; each weekly increment of a trial's row is one draw
from that pool. -/
theorem claim_c5 (pulse actuals : List Int) (idx : Nat → Nat) (d : Int) :
    (pulse ++ actuals = [] → simulation_pool pulse actuals = [1]) ∧
      (pulse ++ actuals ≠ [] →
        simulation_pool pulse actuals = pulse ++ actuals ∧
          ∀ r, choice (simulation_pool pulse actuals) r ∈ pulse ++ actuals) ∧
      (burnupPath (simulation_pool pulse actuals) idx d).getD 0 0 =
        d + choice (simulation_pool pulse actuals) (idx 0) ∧
      ∀ w, w + 1 < remaining_weeks →
        (burnupPath (simulation_pool pulse actuals) idx d).getD (w + 1) 0 =
          (burnupPath (simulation_pool pulse actuals) idx d).getD w 0 +
            choice (simulation_pool pulse actuals) (idx (w + 1)) := by
  refine ⟨?_, ?_, ?_, ?_⟩
  · intro h
    rw [simulation_pool, if_pos h]
  · intro h
    rw [simulation_pool, if_neg h]
    exact ⟨rfl, fun r => choice_mem _ r h⟩
  · exact burnupPathAux_head _ idx remaining_weeks d 0 (by decide)
  · intro w hw
    have := burnupPathAux_step (simulation_pool pulse actuals) idx
      remaining_weeks d 0 w hw
    simpa using this

/-- Witness for C5 at pulse `[2]`, actuals `[3]` (and the empty-empty fallback
case). -/
theorem claim_c5_witness :
    simulation_pool ([] : List Int) [] = [1] ∧
      simulation_pool [2] [3] = [2] ++ [3] ∧
      choice (simulation_pool [2] [3]) 7 ∈ [2] ++ [3] ∧
      (burnupPath (simulation_pool [2] [3]) (fun n => n) 0).getD 2 0 =
        (burnupPath (simulation_pool [2] [3]) (fun n => n) 0).getD 1 0 +
          choice (simulation_pool [2] [3]) 2 :=
  ⟨(claim_c5 [] [] (fun n => n) 0).1 rfl,
   ((claim_c5 [2] [3] (fun n => n) 0).2.1 (by decide)).1,
   ((claim_c5 [2] [3] (fun n => n) 0).2.1 (by decide)).2 7,
   (claim_c5 [2] [3] (fun n => n) 0).2.2.2 1 (by decide)⟩

/-- Claim C6 (amended): for trajectory `[0, 10]`, target `5`, start week `0`,
`get_exact_week` returns `5 / (10 + 1e-9) = 5000000000 / 10000000001`, which
is within `1e-9` of `0.5` but not exactly `0.5` (the `1e-9` guard in the
denominator shifts the result). -/
theorem claim_c6_amended :
    get_exact_week 0 [0, 10] 5 = some (5000000000 / 10000000001 : ℚ) ∧
      |(5000000000 / 10000000001 : ℚ) - 1 / 2| < 1 / 1000000000 := by
  constructor
  · show get_exact_week_aux 0 5 0 [0, 10] = _
    rw [get_exact_week_aux, if_pos (by norm_num : (0 : ℚ) ≤ 5 ∧ (5 : ℚ) ≤ 10)]
    norm_num [eps]
  · rw [abs_sub_lt_iff]
    constructor <;> norm_num

/-- Counterexample for C6 as stated: the returned value is not exactly `0.5`. -/
theorem claim_c6_counterexample :
    get_exact_week 0 [0, 10] 5 ≠ some (1 / 2 : ℚ) := by
  show get_exact_week_aux 0 5 0 [0, 10] ≠ _
  rw [get_exact_week_aux, if_pos (by norm_num : (0 : ℚ) ≤ 5 ∧ (5 : ℚ) ≤ 10)]
  intro h
  rw [Option.some_inj] at h
  rw [eps] at h
  norm_num at h

/-- Claim C7: with a throughput pool free of negative values, every row of a
burn-up run is monotonically non-decreasing week over week, and its first
entry is at least the starting cumulative `items_done`. -/
theorem claim_c7 (pool : List Int) (idx : Nat → Nat → Nat) (d : Int) (sims : Nat)
    (hpool : ∀ x ∈ pool, 0 ≤ x) :
    ∀ row ∈ burnupRun pool idx d sims,
      (∀ w, w + 1 < row.length → row.getD w 0 ≤ row.getD (w + 1) 0) ∧
        d ≤ row.getD 0 0 := by
  intro row hrow
  rw [burnupRun] at hrow
  obtain ⟨i, hi, rfl⟩ := List.mem_map.mp hrow
  constructor
  · intro w hw
    rw [burnupPath_length] at hw
    rw [burnupPath, burnupPathAux_step pool (idx i) remaining_weeks d 0 w hw]
    have := choice_nonneg pool (idx i (0 + w + 1)) hpool
    omega
  · have hh := burnupPathAux_head pool (idx i) remaining_weeks d 0 (by decide)
    have := choice_nonneg pool (idx i 0) hpool
    rw [burnupPath, hh]
    omega

/-- Witness for C7 at pool `[2, 0]` (contains a zero, no negatives), one
trial, starting cumulative 1. -/
theorem claim_c7_witness :
    ((burnupPath [2, 0] (fun n => n) 1).getD 0 0 ≤
        (burnupPath [2, 0] (fun n => n) 1).getD (0 + 1) 0) ∧
      (1 : Int) ≤ (burnupPath [2, 0] (fun n => n) 1).getD 0 0 :=
  have h := claim_c7 [2, 0] (fun _ n => n) 1 1 (by decide)
    (burnupPath [2, 0] (fun n => n) 1) (by decide)
  ⟨h.1 0 (by decide), h.2⟩

/-- Claim C8: the linear-interpolation percentile is monotonic in rank: for a
non-empty batch and ranks `0 ≤ q1 < q2 ≤ 100`, the percentile value at `q1`
is at most the value at `q2`. -/
theorem claim_c8 (data : List ℚ) (q1 q2 : ℚ) (hne : data ≠ [])
    (h0 : 0 ≤ q1) (h12 : q1 < q2) (h100 : q2 ≤ 100) :
    percentile data q1 ≤ percentile data q2 := by
  have hs : (sortedBatch data).Sorted (· ≤ ·) := List.sorted_insertionSort _ data
  have hperm := List.perm_insertionSort (fun a b : ℚ => a ≤ b) data
  have hlen : (sortedBatch data).length = data.length := hperm.length_eq
  have hne' : sortedBatch data ≠ [] := by
    intro h
    apply hne
    have hl : data.length = 0 := by rw [← hlen, h]; rfl
    exact List.eq_nil_of_length_eq_zero hl
  have hn : 0 < (sortedBatch data).length := List.length_pos.mpr hne'
  have hn1 : (1 : ℚ) ≤ ((sortedBatch data).length : ℚ) := by exact_mod_cast hn
  unfold percentile
  apply interpSorted_mono hs hne'
  · apply mul_nonneg (div_nonneg h0 (by norm_num))
    linarith
  · have ha : q1 / 100 ≤ q2 / 100 := by linarith
    have hb : (0 : ℚ) ≤ ((sortedBatch data).length : ℚ) - 1 := by linarith
    exact mul_le_mul_of_nonneg_right ha hb
  · have ha : q2 / 100 ≤ 1 := by linarith
    have hb : (0 : ℚ) ≤ ((sortedBatch data).length : ℚ) - 1 := by linarith
    calc q2 / 100 * (((sortedBatch data).length : ℚ) - 1)
        ≤ 1 * (((sortedBatch data).length : ℚ) - 1) :=
          mul_le_mul_of_nonneg_right ha hb
      _ = ((sortedBatch data).length : ℚ) - 1 := one_mul _

/-- Witness for C8 at batch `[3, 1, 2]`, ranks `50 < 95`. -/
theorem claim_c8_witness : percentile [3, 1, 2] 50 ≤ percentile [3, 1, 2] 95 :=
  claim_c8 [3, 1, 2] 50 95 (by decide) (by decide) (by decide) (by decide)

/-- Claim C9: invoking the scope engine with `scope_min > scope_max` and a
positive number of trials fails at once — `random.randint` rejects the empty
range in the very first trial — and the run yields an error, never an outcome
batch. -/
theorem claim_c9 (smin smax : Int) (sims : Nat) (sdraw : Nat → Nat)
    (pdraws : Nat → Nat → Int) (hbad : smax < smin) (hsims : 0 < sims) :
    scopeRun smin smax sims sdraw pdraws =
      Except.error "ValueError: empty range in randint" := by
  obtain ⟨m, rfl⟩ : ∃ m, sims = m + 1 := ⟨sims - 1, by omega⟩
  rw [scopeRun, List.range_succ_eq_map, List.mapM_cons, randint, if_pos hbad]
  rfl

/-- Witness for C9 at bounds `5 > 3`, two trials. -/
theorem claim_c9_witness :
    scopeRun 5 3 2 (fun _ => 0) (fun _ _ => 1) =
      Except.error "ValueError: empty range in randint" :=
  claim_c9 5 3 2 (fun _ => 0) (fun _ _ => 1) (by decide) (by decide)

/-- Claim C10: a crossing result of exactly `0.0` is indistinguishable from an
absent crossing at the reporting boundary: `get_exact_week` can return `0`
(trajectory `[0, 5]`, target `0`, start week `0`), `fmt_week` renders both
`0.0` and `None` as `"N/A"`, and the vertical-marker guard (Python
truthiness) is false for both. -/
theorem claim_c10 :
    get_exact_week 0 [0, 5] 0 = some 0 ∧
      fmt_week (some 0) = "N/A" ∧ fmt_week none = "N/A" ∧
      pyTruthy (some 0) = false ∧ pyTruthy none = false := by
  refine ⟨?_, rfl, rfl, rfl, rfl⟩
  show get_exact_week_aux 0 0 0 [0, 5] = _
  rw [get_exact_week_aux, if_pos (by norm_num : (0 : ℚ) ≤ 0 ∧ (0 : ℚ) ≤ 5)]
  norm_num

end MonteCarlo
